import Mathlib

/-!
Shallow embedding of `ascii_art.c` (image to ASCII art converter).

The C program is embedded over exact arithmetic: `float`/`double`
intermediates become `ℚ`, C `int` becomes `ℤ`/`ℕ`, the decoded pixel
buffer becomes a list of byte values, and the process boundary (argv,
stdout, stderr, exit code) becomes an explicit result structure with the
image decoder supplied as an oracle function.
-/

namespace AsciiArt

/-- ASCII ramps, dark to light (`RAMP_DEFAULT`, `RAMP_INVERT` in the source). -/
def RAMP_DEFAULT : List Char := "@%#*+=-:. ".toList

/-- Inverted ramp constant from the source. -/
def RAMP_INVERT : List Char := " .:-=+*#%@".toList

/-- Clamp helper, embedding `clampi` from the source. -/
def clampi (v a b : ℤ) : ℤ := if v < a then a else if v > b then b else v

/-- Rounding of C `roundf`: round half away from zero. -/
def roundAway (q : ℚ) : ℤ := if q < 0 then ⌈q - 1/2⌉ else ⌊q + 1/2⌋

/-- Embedding of `luminance_to_char`: `idx = (int)floorf(lum * (len - 1) + 0.5f)`
clamped into `[0, len-1]`, then the ramp character at that index. -/
def luminance_to_char (lum : ℚ) (ramp : List Char) : Char :=
  let len : ℤ := ramp.length
  let idx : ℤ := ⌊lum * (len - 1) + 1/2⌋
  ramp.getD (clampi idx 0 (len - 1)).toNat ' '

/-- Decoded image as delivered by the external decoder: width, height,
channel count and the raw byte buffer (row major, top to bottom). -/
structure Image where
  w : ℕ
  h : ℕ
  channels : ℕ
  data : List ℕ

/-- Byte index of the first channel of pixel `(sx, sy)`:
`(sy * w + sx) * (channels == 1 ? 1 : channels)` in the source. -/
def pix_idx (w channels sx sy : ℕ) : ℕ :=
  (sy * w + sx) * (if channels = 1 then 1 else channels)

/-- Per-pixel luminance, embedding the loop body at lines 115-124 of the
source: single-channel images repeat the byte into r = g = b, otherwise
the first three channels are read; `(0.2126*r + 0.7152*g + 0.0722*b)/255`. -/
def pixel_lum (data : List ℕ) (w channels sx sy : ℕ) : ℚ :=
  let idx := pix_idx w channels sx sy
  let r : ℕ := data.getD idx 0
  let g : ℕ := if channels = 1 then r else data.getD (idx + 1) 0
  let b : ℕ := if channels = 1 then r else data.getD (idx + 2) 0
  ((0.2126 : ℚ) * r + (0.7152 : ℚ) * g + (0.0722 : ℚ) * b) / 255

/-- Lower x-bound of the sample rectangle of output column `ox`:
`clampi((int)floorf(ox * w / out_w), 0, w)`. The same formula serves the
y-axis with `(oy, h, out_h)` substituted. -/
def sx0i (ox w ow : ℕ) : ℤ := clampi ⌊((ox : ℚ) * w) / ow⌋ 0 w

/-- Upper x-bound of the sample rectangle of output column `ox`:
`clampi((int)ceilf((ox+1) * w / out_w), 0, w)`. -/
def sx1i (ox w ow : ℕ) : ℤ := clampi ⌈(((ox : ℚ) + 1) * w) / ow⌉ 0 w

/-- Pixel coordinates `(sx, sy)` visited by the nested averaging loops over
the half-open rectangle `[sx0, sx1) × [sy0, sy1)`, in loop order. -/
def rectPixels (sx0 sx1 sy0 sy1 : ℤ) : List (ℤ × ℤ) :=
  (List.range (sy1 - sy0).toNat).flatMap (fun (i : ℕ) =>
    (List.range (sx1 - sx0).toNat).map (fun (j : ℕ) => (sx0 + (j : ℤ), sy0 + (i : ℤ))))

/-- Average luminance of one output cell, embedding lines 111-129: the sum
of per-pixel luminances divided by the pixel count, and `0` for an empty
rectangle. -/
def cell_avg (data : List ℕ) (w channels : ℕ) (sx0 sx1 sy0 sy1 : ℤ) : ℚ :=
  let pts := rectPixels sx0 sx1 sy0 sy1
  let count := pts.length
  if 0 < count then
    (pts.map (fun p => pixel_lum data w channels p.1.toNat p.2.toNat)).sum / count
  else 0

/-- Character aspect correction constant from the source. -/
def CHAR_ASPECT : ℚ := 0.55

/-- Output height, lines 88-89: `roundf(h * (out_w / w) * CHAR_ASPECT)`
raised to at least 1. -/
def out_h_of (w h out_w : ℕ) : ℤ :=
  let r := roundAway ((h : ℚ) * ((out_w : ℚ) / (w : ℚ)) * CHAR_ASPECT)
  if r < 1 then 1 else r

/-- Glyph of output cell `(ox, oy)`, combining geometry, averaging and
mapping exactly as the loop body does. -/
def cellChar (img : Image) (channels out_w : ℕ) (oh : ℤ) (ramp : List Char)
    (ox oy : ℕ) : Char :=
  let sy0 := sx0i oy img.h oh.toNat
  let sy1 := sx1i oy img.h oh.toNat
  let sx0 := sx0i ox img.w out_w
  let sx1 := sx1i ox img.w out_w
  luminance_to_char (cell_avg img.data img.w channels sx0 sx1 sy0 sy1) ramp

/-- Output grid produced by the main double loop (lines 94-135), one inner
list per output row, top to bottom, each row left to right. -/
def render (img : Image) (target_width : ℕ) (invert : Bool) : List (List Char) :=
  let channels := if img.channels < 3 then 1 else img.channels
  let out_w := target_width
  let oh := out_h_of img.w img.h out_w
  let ramp := if invert then RAMP_INVERT else RAMP_DEFAULT
  (List.range oh.toNat).map (fun oy =>
    (List.range out_w).map (fun ox => cellChar img channels out_w oh ramp ox oy))

/-- C `isspace` on the default locale. -/
def isSpaceC (c : Char) : Bool :=
  c = ' ' || c = '\t' || c = '\n' || c = '\x0b' || c = '\x0c' || c = '\x0d'

/-- Digit-accumulating loop of C `atoi`: consume leading decimal digits,
stop at the first non-digit. -/
def atoiDigits : List Char → ℤ → ℤ
  | [], acc => acc
  | c :: cs, acc =>
    if c.isDigit then atoiDigits cs (acc * 10 + ((c.toNat : ℤ) - 48)) else acc

/-- Embedding of C `atoi`: skip whitespace, optional sign, then digits;
a string with no digits at that point yields 0 (overflow is not modelled). -/
def atoi (s : String) : ℤ :=
  match s.toList.dropWhile isSpaceC with
  | '-' :: rest => - atoiDigits rest 0
  | '+' :: rest => atoiDigits rest 0
  | cs => atoiDigits cs 0

/-- Target width from the width argument, lines 64-65: `atoi`, then any
non-positive result falls back to the default 120. -/
def widthFromArg (s : String) : ℤ :=
  let t := atoi s
  if t ≤ 0 then 120 else t

/-- Usage text printed to stderr when the image path is missing. -/
def usageText (prog : String) : String :=
  "Usage: " ++ prog ++ " <image> [width] [inv]\n" ++
  "  image : path to PNG/JPEG/BMP/GIF/TGA/WebP etc\n" ++
  "  width : desired output width in characters (default 120)\n" ++
  "  inv   : if present (e.g. \x27inv\x27), invert ASCII brightness mapping\n"

/-- Error text printed to stderr when the decoder fails on `filename`. -/
def loadErrText (filename : String) : String :=
  "Failed to load image \x27" ++ filename ++ "\x27 (stb_image error)\n"

/-- Result of one process run: exit code plus everything written to the
two output streams. -/
structure ProcResult where
  exitCode : ℕ
  stdout : String
  stderr : String
deriving Repr, DecidableEq

/-- Grid flattened the way the loop writes it: each row of glyphs followed
by a newline, rows in order. -/
def gridString (rows : List (List Char)) : String :=
  String.join (rows.map (fun row => String.mk row ++ "\n"))

/-- Embedding of `main`: `argv` is the full argument vector (program name
first) and `decode` stands for `stbi_load`, returning the decoded image or
`none` on failure. -/
def mainC (argv : List String) (decode : String → Option Image) : ProcResult :=
  if argv.length < 2 then
    { exitCode := 1, stdout := "", stderr := usageText (argv.getD 0 "") }
  else
    let filename := argv.getD 1 ""
    let target_width : ℤ :=
      if 3 ≤ argv.length then widthFromArg (argv.getD 2 "") else 120
    let invert : Bool :=
      if 4 ≤ argv.length then
        argv.getD 3 "" = "inv" || argv.getD 3 "" = "invert"
      else false
    match decode filename with
    | none => { exitCode := 2, stdout := "", stderr := loadErrText filename }
    | some img =>
      { exitCode := 0
        stdout := gridString (render img target_width.toNat invert)
        stderr := "" }

/-- Normalized channel count, line 79: any value below 3 is treated as a
single grayscale channel. -/
def normChannels (img : Image) : ℕ := if img.channels < 3 then 1 else img.channels

/-- Rounding used by the spec for the glyph index: round half up,
`⌊q + 1/2⌋`. -/
def roundHalfUp (q : ℚ) : ℤ := ⌊q + 1/2⌋

/-- Per-pixel luminance as the spec words it: the pixel base index is
`(sy*width + sx) * channelCount`; for a single channel the byte is used as
r = g = b, otherwise the first three channels are r, g, b and any fourth
channel is ignored. -/
def specPixelLum (data : List ℕ) (w cc sx sy : ℕ) : ℚ :=
  let base := (sy * w + sx) * cc
  let r : ℕ := data.getD base 0
  let g : ℕ := if cc = 1 then r else data.getD (base + 1) 0
  let b : ℕ := if cc = 1 then r else data.getD (base + 2) 0
  ((0.2126 : ℚ) * r + (0.7152 : ℚ) * g + (0.0722 : ℚ) * b) / 255

/-! Helper lemmas. -/

theorem clampi_eq_max_min (v a b : ℤ) (hab : a ≤ b) :
    clampi v a b = max a (min b v) := by
  unfold clampi
  split_ifs <;> omega

theorem rectPixels_length (sx0 sx1 sy0 sy1 : ℤ) :
    (rectPixels sx0 sx1 sy0 sy1).length = (sy1 - sy0).toNat * (sx1 - sx0).toNat := by
  unfold rectPixels
  rw [List.length_flatMap]
  simp only [Function.comp_def, List.length_map, List.length_range, List.map_const']
  rw [List.sum_replicate, smul_eq_mul]

theorem getD_le_of_all_le (l : List ℕ) (m : ℕ) (h : ∀ x ∈ l, x ≤ m) (i : ℕ) :
    l.getD i 0 ≤ m := by
  induction l generalizing i with
  | nil => simp
  | cons c cs ih =>
    cases i with
    | zero => simpa using h c (by simp)
    | succ j =>
      simp only [List.getD_cons_succ]
      exact ih (fun x hx => h x (by simp [hx])) j

theorem list_sum_le_length (l : List ℚ) (h : ∀ x ∈ l, x ≤ 1) :
    l.sum ≤ (l.length : ℚ) := by
  induction l with
  | nil => simp
  | cons c cs ih =>
    simp only [List.sum_cons, List.length_cons]
    have h1 : c ≤ 1 := h c (by simp)
    have h2 : cs.sum ≤ (cs.length : ℚ) := ih (fun x hx => h x (by simp [hx]))
    push_cast
    linarith

theorem list_sum_nonneg (l : List ℚ) (h : ∀ x ∈ l, 0 ≤ x) : 0 ≤ l.sum := by
  induction l with
  | nil => simp
  | cons c cs ih =>
    simp only [List.sum_cons]
    have h1 : 0 ≤ c := h c (by simp)
    have h2 : 0 ≤ cs.sum := ih (fun x hx => h x (by simp [hx]))
    linarith

theorem pixel_lum_eq_spec (data : List ℕ) (w cc sx sy : ℕ) :
    pixel_lum data w cc sx sy = specPixelLum data w cc sx sy := by
  unfold pixel_lum specPixelLum pix_idx
  by_cases h : cc = 1 <;> simp [h]

theorem pixel_lum_nonneg (data : List ℕ) (w cc sx sy : ℕ) :
    0 ≤ pixel_lum data w cc sx sy := by
  unfold pixel_lum
  have hr : (0 : ℚ) ≤ (data.getD (pix_idx w cc sx sy) 0 : ℕ) := Nat.cast_nonneg _
  have hg : (0 : ℚ) ≤ (data.getD (pix_idx w cc sx sy + 1) 0 : ℕ) := Nat.cast_nonneg _
  have hb : (0 : ℚ) ≤ (data.getD (pix_idx w cc sx sy + 2) 0 : ℕ) := Nat.cast_nonneg _
  by_cases h : cc = 1 <;> simp only [h, if_true, if_false, reduceIte] <;> positivity

theorem pixel_lum_le_one (data : List ℕ) (w cc sx sy : ℕ)
    (hdata : ∀ x ∈ data, x ≤ 255) :
    pixel_lum data w cc sx sy ≤ 1 := by
  unfold pixel_lum
  have hr := getD_le_of_all_le data 255 hdata (pix_idx w cc sx sy)
  have hg := getD_le_of_all_le data 255 hdata (pix_idx w cc sx sy + 1)
  have hb := getD_le_of_all_le data 255 hdata (pix_idx w cc sx sy + 2)
  have hr' : ((data.getD (pix_idx w cc sx sy) 0 : ℕ) : ℚ) ≤ 255 := by exact_mod_cast hr
  have hg' : ((data.getD (pix_idx w cc sx sy + 1) 0 : ℕ) : ℚ) ≤ 255 := by exact_mod_cast hg
  have hb' : ((data.getD (pix_idx w cc sx sy + 2) 0 : ℕ) : ℚ) ≤ 255 := by exact_mod_cast hb
  rcases eq_or_ne cc 1 with h | h
  · subst h
    simp only [if_pos rfl, reduceIte]
    rw [div_le_one (by norm_num)]
    have := hr'
    linarith
  · simp only [if_neg h]
    rw [div_le_one (by norm_num)]
    linarith

theorem sx0i_eq_floor (ox w ow : ℕ) (how : 1 ≤ ow) (hox : ox ≤ ow) :
    sx0i ox w ow = ⌊((ox : ℚ) * w) / ow⌋ := by
  have howq : (0 : ℚ) < ow := by exact_mod_cast how
  have h0 : (0 : ℤ) ≤ ⌊((ox : ℚ) * w) / ow⌋ := by
    apply Int.floor_nonneg.mpr
    positivity
  have h1 : ⌊((ox : ℚ) * w) / ow⌋ ≤ (w : ℤ) := by
    have hq : ((ox : ℚ) * w) / ow ≤ (w : ℚ) := by
      rw [div_le_iff₀ howq]
      have : (ox : ℚ) ≤ ow := by exact_mod_cast hox
      nlinarith [Nat.cast_nonneg (α := ℚ) w]
    calc ⌊((ox : ℚ) * w) / ow⌋ ≤ ⌊(w : ℚ)⌋ := Int.floor_le_floor hq
    _ = (w : ℤ) := Int.floor_natCast w
  unfold sx0i
  rw [clampi_eq_max_min _ _ _ (by positivity)]
  omega

theorem sx1i_eq_ceil (ox w ow : ℕ) (how : 1 ≤ ow) (hox : ox < ow) :
    sx1i ox w ow = ⌈(((ox : ℚ) + 1) * w) / ow⌉ := by
  have howq : (0 : ℚ) < ow := by exact_mod_cast how
  have h0 : (0 : ℤ) ≤ ⌈(((ox : ℚ) + 1) * w) / ow⌉ := by
    apply Int.ceil_nonneg
    positivity
  have h1 : ⌈(((ox : ℚ) + 1) * w) / ow⌉ ≤ (w : ℤ) := by
    rw [Int.ceil_le]
    push_cast
    rw [div_le_iff₀ howq]
    have : (ox : ℚ) + 1 ≤ ow := by exact_mod_cast hox
    nlinarith [Nat.cast_nonneg (α := ℚ) w]
  unfold sx1i
  rw [clampi_eq_max_min _ _ _ (by positivity)]
  omega

theorem sx0i_lt_sx1i (ox w ow : ℕ) (hw : 1 ≤ w) (how : 1 ≤ ow) (hox : ox < ow) :
    sx0i ox w ow < sx1i ox w ow := by
  rw [sx0i_eq_floor ox w ow how (le_of_lt hox), sx1i_eq_ceil ox w ow how hox]
  have howq : (0 : ℚ) < ow := by exact_mod_cast how
  have hwq : (0 : ℚ) < w := by exact_mod_cast hw
  have hlt : ((ox : ℚ) * w) / ow < (((ox : ℚ) + 1) * w) / ow := by
    apply div_lt_div_of_pos_right _ howq
    nlinarith
  have : (⌊((ox : ℚ) * w) / ow⌋ : ℚ) < (⌈(((ox : ℚ) + 1) * w) / ow⌉ : ℚ) :=
    lt_of_le_of_lt (Int.floor_le _) (lt_of_lt_of_le hlt (Int.le_ceil _))
  exact_mod_cast this

theorem rect_coverage (w ow x : ℕ) (hw : 1 ≤ w) (how : 1 ≤ ow) (hx : x < w) :
    ∃ ox, ox < ow ∧ sx0i ox w ow ≤ (x : ℤ) ∧ (x : ℤ) < sx1i ox w ow := by
  have howq : (0 : ℚ) < ow := by exact_mod_cast how
  have hoxlt : x * ow / w < ow := by
    have h0 : 0 < ow := by omega
    have hmul : x * ow < w * ow := (Nat.mul_lt_mul_right h0).mpr hx
    rw [Nat.div_lt_iff_lt_mul (by omega), Nat.mul_comm ow w]
    exact hmul
  refine ⟨x * ow / w, hoxlt, ?_, ?_⟩
  · rw [sx0i_eq_floor _ w ow how (le_of_lt hoxlt)]
    have hq : (((x * ow / w : ℕ) : ℚ) * w) / ow ≤ (x : ℚ) := by
      rw [div_le_iff₀ howq]
      exact_mod_cast Nat.div_mul_le_self (x * ow) w
    calc ⌊(((x * ow / w : ℕ) : ℚ) * w) / ow⌋ ≤ ⌊(x : ℚ)⌋ := Int.floor_le_floor hq
    _ = (x : ℤ) := Int.floor_natCast x
  · rw [sx1i_eq_ceil _ w ow how hoxlt]
    rw [Int.lt_ceil]
    rw [lt_div_iff₀ howq]
    have hdm := Nat.div_add_mod (x * ow) w
    have hml : (x * ow) % w < w := Nat.mod_lt _ (by omega)
    have key : x * ow < (x * ow / w + 1) * w := by nlinarith [hdm, hml]
    push_cast
    exact_mod_cast key

theorem rect_overlap (w ow ox : ℕ) :
    sx1i ox w ow - sx0i (ox + 1) w ow ≤ 1 := by
  unfold sx1i sx0i
  rw [clampi_eq_max_min _ _ _ (by positivity), clampi_eq_max_min _ _ _ (by positivity)]
  have hcast : (((ox + 1 : ℕ) : ℚ) * w) / ow = (((ox : ℚ) + 1) * w) / ow := by
    push_cast
    ring
  rw [hcast]
  have hcf : ⌈(((ox : ℚ) + 1) * w) / ow⌉ ≤ ⌊(((ox : ℚ) + 1) * w) / ow⌋ + 1 :=
    Int.ceil_le_floor_add_one _
  omega

/-- C5: the two built-in ramps are the fixed constants of the source, the
default ramp is "@%#*+=-:. " ordered dark to light, and the inverted ramp
is the exact character-reverse of the default ramp. -/
theorem ramps_fixed_and_reversed :
    RAMP_DEFAULT = "@%#*+=-:. ".toList ∧ RAMP_INVERT = RAMP_DEFAULT.reverse := by
  constructor
  · rfl
  · decide

/-- C4: for every luminance value and every non-empty ramp,
`luminance_to_char` returns the ramp character at index
round-half-up(lum * (len - 1)) clamped into [0, len-1]; for any luminance
below 0 the result equals the result at 0, and for any luminance above 1
the result equals the result at 1. -/
theorem toGlyph_round_clamp (lum : ℚ) (ramp : List Char) (hr : 1 ≤ ramp.length) :
    luminance_to_char lum ramp =
      ramp.getD (clampi (roundHalfUp (lum * ((ramp.length : ℚ) - 1))) 0
        ((ramp.length : ℤ) - 1)).toNat ' ' ∧
    (lum < 0 → luminance_to_char lum ramp = luminance_to_char 0 ramp) ∧
    (1 < lum → luminance_to_char lum ramp = luminance_to_char 1 ramp) := by
  have hL : (1 : ℤ) ≤ (ramp.length : ℤ) := by exact_mod_cast hr
  have hLq : (0 : ℚ) ≤ (ramp.length : ℚ) - 1 := by
    have : (1 : ℚ) ≤ (ramp.length : ℚ) := by exact_mod_cast hr
    linarith
  have hhalf : ⌊(1 / 2 : ℚ)⌋ = 0 := by norm_num
  refine ⟨?_, ?_, ?_⟩
  · simp only [luminance_to_char, roundHalfUp]
    norm_cast
  · intro hneg
    simp only [luminance_to_char]
    have h1 : lum * (((ramp.length : ℤ) : ℚ) - 1) ≤ 0 := by
      push_cast
      nlinarith [hneg.le, hLq]
    have hidx : ⌊lum * (((ramp.length : ℤ) : ℚ) - 1) + 1 / 2⌋ ≤ 0 := by
      calc ⌊lum * (((ramp.length : ℤ) : ℚ) - 1) + 1 / 2⌋
        ≤ ⌊(0 : ℚ) + 1 / 2⌋ := Int.floor_le_floor (by linarith)
      _ = 0 := by norm_num
    have hidx0 : ⌊(0 : ℚ) * (((ramp.length : ℤ) : ℚ) - 1) + 1 / 2⌋ = 0 := by norm_num
    have hcl : clampi ⌊lum * (((ramp.length : ℤ) : ℚ) - 1) + 1 / 2⌋ 0 ((ramp.length : ℤ) - 1)
        = clampi ⌊(0 : ℚ) * (((ramp.length : ℤ) : ℚ) - 1) + 1 / 2⌋ 0 ((ramp.length : ℤ) - 1) := by
      rw [hidx0]
      unfold clampi
      split_ifs <;> omega
    rw [hcl]
  · intro hgt
    simp only [luminance_to_char]
    have hidx : ((ramp.length : ℤ) - 1) ≤ ⌊lum * (((ramp.length : ℤ) : ℚ) - 1) + 1 / 2⌋ := by
      apply Int.le_floor.mpr
      push_cast
      nlinarith [mul_nonneg (by linarith : (0 : ℚ) ≤ lum - 1) hLq]
    have hidx1 : ⌊(1 : ℚ) * (((ramp.length : ℤ) : ℚ) - 1) + 1 / 2⌋ = (ramp.length : ℤ) - 1 := by
      rw [one_mul]
      have : (((ramp.length : ℤ) : ℚ) - 1 + 1 / 2) = (((ramp.length : ℤ) - 1 : ℤ) : ℚ) + 1 / 2 := by
        push_cast
        ring
      rw [this, Int.floor_int_add, hhalf, add_zero]
    have hcl : clampi ⌊lum * (((ramp.length : ℤ) : ℚ) - 1) + 1 / 2⌋ 0 ((ramp.length : ℤ) - 1)
        = clampi ⌊(1 : ℚ) * (((ramp.length : ℤ) : ℚ) - 1) + 1 / 2⌋ 0 ((ramp.length : ℤ) - 1) := by
      rw [hidx1]
      unfold clampi
      split_ifs <;> omega
    rw [hcl]

/-- C4 witness: the glyph for luminance 2 on the default ramp matches the
glyph at the upper boundary 1. -/
theorem toGlyph_round_clamp_witness :
    luminance_to_char 2 RAMP_DEFAULT = luminance_to_char 1 RAMP_DEFAULT :=
  (toGlyph_round_clamp 2 RAMP_DEFAULT (by decide)).2.2 (by norm_num)

/-- C8: a sample rectangle containing zero pixels yields the defined cell
luminance 0, which the glyph mapper sends to the glyph at index 0 of the
ramp (the darkest position of the dark-to-light ordering). -/
theorem empty_rect_lum_zero (data : List ℕ) (w cc : ℕ) (sx0 sx1 sy0 sy1 : ℤ)
    (h : rectPixels sx0 sx1 sy0 sy1 = []) :
    cell_avg data w cc sx0 sx1 sy0 sy1 = 0 ∧
    ∀ ramp : List Char, 1 ≤ ramp.length →
      luminance_to_char (cell_avg data w cc sx0 sx1 sy0 sy1) ramp = ramp.getD 0 ' ' := by
  have h0 : cell_avg data w cc sx0 sx1 sy0 sy1 = 0 := by
    unfold cell_avg
    simp [h]
  refine ⟨h0, ?_⟩
  intro ramp hr
  rw [h0]
  simp only [luminance_to_char]
  have hL : (1 : ℤ) ≤ (ramp.length : ℤ) := by exact_mod_cast hr
  have hidx : ⌊(0 : ℚ) * (((ramp.length : ℤ) : ℚ) - 1) + 1 / 2⌋ = 0 := by norm_num
  rw [hidx]
  have : clampi 0 0 ((ramp.length : ℤ) - 1) = 0 := by
    unfold clampi
    split_ifs <;> omega
  rw [this]
  rfl

/-- C8 witness: the degenerate rectangle [0,0) × [0,0) on an empty buffer
has cell luminance 0. -/
theorem empty_rect_lum_zero_witness : cell_avg [] 1 1 0 0 0 0 = 0 :=
  (empty_rect_lum_zero [] 1 1 0 0 0 0 (by rfl)).1

/-- C10: when the buffer length is width*height*channelCount with the
channel count in {1,3,4}, the byte index read for any in-range pixel is
strictly below the buffer length, as are the two following channel indices
read in the multi-channel case. -/
theorem pix_idx_in_bounds (data : List ℕ) (w h cc sx sy : ℕ)
    (hlen : data.length = w * h * cc) (hcc : cc = 1 ∨ cc = 3 ∨ cc = 4)
    (hsx : sx < w) (hsy : sy < h) :
    pix_idx w cc sx sy < data.length ∧
    (cc ≠ 1 → pix_idx w cc sx sy + 2 < data.length) := by
  rw [hlen]
  have hbase : sy * w + sx + 1 ≤ h * w := by
    have h1 : (sy + 1) * w ≤ h * w := Nat.mul_le_mul_right w (by omega)
    nlinarith
  rcases hcc with h1 | h1 | h1 <;> subst h1 <;> unfold pix_idx <;> norm_num
  · nlinarith
  · exact ⟨by nlinarith, by nlinarith⟩
  · exact ⟨by nlinarith, by nlinarith⟩

/-- C10 witness: a 4-byte single-pixel RGBA buffer is accessed in bounds at
its only pixel. -/
theorem pix_idx_in_bounds_witness :
    pix_idx 1 4 0 0 < ([0, 0, 0, 0] : List ℕ).length ∧
    (4 ≠ 1 → pix_idx 1 4 0 0 + 2 < ([0, 0, 0, 0] : List ℕ).length) :=
  pix_idx_in_bounds [0, 0, 0, 0] 1 1 4 0 0 (by rfl) (by norm_num) (by norm_num) (by norm_num)

theorem atoiDigits_of_no_digit (l : List Char) (a : ℤ)
    (h : ∀ c ∈ l, c.isDigit = false) : atoiDigits l a = a := by
  cases l with
  | nil => rfl
  | cons c cs =>
    unfold atoiDigits
    rw [h c (by simp)]
    simp

theorem atoi_of_no_digit (s : String) (h : ∀ c ∈ s.toList, c.isDigit = false) :
    atoi s = 0 := by
  have hsub : ∀ c ∈ s.toList.dropWhile isSpaceC, c.isDigit = false := by
    intro c hc
    exact h c (List.Sublist.mem hc (List.dropWhile_sublist _))
  unfold atoi
  split
  · rename_i rest heq
    rw [atoiDigits_of_no_digit rest 0 (by
      intro c hc
      exact hsub c (by rw [heq]; simp [hc]))]
    simp
  · rename_i rest heq
    exact atoiDigits_of_no_digit rest 0 (by
      intro c hc
      exact hsub c (by rw [heq]; simp [hc]))
  · exact atoiDigits_of_no_digit _ 0 hsub

/-- C7: a width argument parsing to a non-positive integer, or containing no
digits at all, silently falls back to the default width 120 and produces no
diagnostic on the error stream, while any positive parsed value is used as
given. -/
theorem width_fallback (s : String) :
    (atoi s ≤ 0 → widthFromArg s = 120) ∧
    (0 < atoi s → widthFromArg s = atoi s) ∧
    ((∀ c ∈ s.toList, c.isDigit = false) → widthFromArg s = 120) ∧
    (∀ (prog path : String) (decode : String → Option Image) (img : Image),
      decode path = some img → (mainC [prog, path, s] decode).stderr = "") := by
  refine ⟨?_, ?_, ?_, ?_⟩
  · intro h
    unfold widthFromArg
    simp [h]
  · intro h
    unfold widthFromArg
    simp [not_le.mpr h]
  · intro h
    unfold widthFromArg
    simp [atoi_of_no_digit s h]
  · intro prog path decode img hdec
    simp [mainC, hdec]

/-- C7 witness: the width argument "0" parses non-positively and falls back
to 120, and a digit-free argument also falls back to 120. -/
theorem width_fallback_witness :
    widthFromArg "0" = 120 ∧ widthFromArg "abc" = 120 :=
  ⟨(width_fallback "0").1 (by decide),
   (width_fallback "abc").2.2.1 (by decide)⟩

/-- C2: for valid dimensions, each output cell's sample bound is the
clamped floor/ceil linear interpolation, the union of all cells' ranges
covers every source index, and the ranges of two adjacent cells overlap by
at most one index (the same function is applied on the x-axis with
`(w, outWidth)` and on the y-axis with `(h, outHeight)`). -/
theorem sample_rects_cover_overlap (w ow : ℕ) (hw : 1 ≤ w) (how : 1 ≤ ow) :
    (∀ ox, sx0i ox w ow = clampi ⌊((ox : ℚ) * w) / ow⌋ 0 w ∧
      sx1i ox w ow = clampi ⌈(((ox : ℚ) + 1) * w) / ow⌉ 0 w) ∧
    (∀ x, x < w → ∃ ox, ox < ow ∧ sx0i ox w ow ≤ (x : ℤ) ∧ (x : ℤ) < sx1i ox w ow) ∧
    (∀ ox, sx1i ox w ow - sx0i (ox + 1) w ow ≤ 1) := by
  refine ⟨fun ox => ⟨rfl, rfl⟩, ?_, ?_⟩
  · intro x hx
    exact rect_coverage w ow x hw how hx
  · intro ox
    exact rect_overlap w ow ox

/-- C2 witness: with 3 source columns and 2 output columns, source column 2
is covered by some cell and the first two cells overlap by at most one
column. -/
theorem sample_rects_cover_overlap_witness :
    (∃ ox, ox < 2 ∧ sx0i ox 3 2 ≤ (2 : ℤ) ∧ (2 : ℤ) < sx1i ox 3 2) ∧
    sx1i 0 3 2 - sx0i 1 3 2 ≤ 1 :=
  ⟨(sample_rects_cover_overlap 3 2 (by norm_num) (by norm_num)).2.1 2 (by norm_num),
   (sample_rects_cover_overlap 3 2 (by norm_num) (by norm_num)).2.2 0⟩

/-- C9: with positive source dimensions and positive output dimensions,
every cell's clamped sample rectangle is non-empty, so the averaging loop
visits at least one pixel and the zero-count fallback branch is never
taken. -/
theorem cell_rect_nonempty (w h ow oh : ℕ) (hw : 1 ≤ w) (hh : 1 ≤ h)
    (how : 1 ≤ ow) (hoh : 1 ≤ oh) (ox oy : ℕ) (hox : ox < ow) (hoy : oy < oh) :
    sx0i ox w ow < sx1i ox w ow ∧ sx0i oy h oh < sx1i oy h oh ∧
    0 < (rectPixels (sx0i ox w ow) (sx1i ox w ow) (sx0i oy h oh) (sx1i oy h oh)).length := by
  have hx := sx0i_lt_sx1i ox w ow hw how hox
  have hy := sx0i_lt_sx1i oy h oh hh hoh hoy
  refine ⟨hx, hy, ?_⟩
  rw [rectPixels_length]
  have h1 : 0 < (sx1i ox w ow - sx0i ox w ow).toNat := by omega
  have h2 : 0 < (sx1i oy h oh - sx0i oy h oh).toNat := by omega
  exact Nat.mul_pos h2 h1

/-- C9 witness: in a 3x3 image rendered at 2x2, the cell (1,1) has a
non-empty sample rectangle. -/
theorem cell_rect_nonempty_witness :
    sx0i 1 3 2 < sx1i 1 3 2 ∧ sx0i 1 3 2 < sx1i 1 3 2 ∧
    0 < (rectPixels (sx0i 1 3 2) (sx1i 1 3 2) (sx0i 1 3 2) (sx1i 1 3 2)).length :=
  cell_rect_nonempty 3 3 2 2 (by norm_num) (by norm_num) (by norm_num) (by norm_num)
    1 1 (by norm_num) (by norm_num)

theorem getD_map_range {α : Type} (f : ℕ → α) (n i : ℕ) (d : α) (h : i < n) :
    ((List.range n).map f).getD i d = f i := by
  rw [List.getD_eq_getElem _ _ (by simpa using h), List.getElem_map, List.getElem_range]

theorem out_h_of_eq_max (w h ow : ℕ) :
    out_h_of w h ow = max 1 (roundAway ((h : ℚ) * ((ow : ℚ) / (w : ℚ)) * (0.55 : ℚ))) := by
  unfold out_h_of CHAR_ASPECT
  show (if roundAway ((h : ℚ) * ((ow : ℚ) / (w : ℚ)) * (0.55 : ℚ)) < 1 then 1
      else roundAway ((h : ℚ) * ((ow : ℚ) / (w : ℚ)) * (0.55 : ℚ))) =
    max 1 (roundAway ((h : ℚ) * ((ow : ℚ) / (w : ℚ)) * (0.55 : ℚ)))
  split <;> omega

/-- C3: for byte-valued pixel data and a non-empty sample rectangle, the
cell luminance equals the arithmetic mean of the per-pixel luminances
`(0.2126*r + 0.7152*g + 0.0722*b)/255` over the rectangle (single-channel
bytes repeated into r = g = b, any fourth channel ignored), and this mean
lies in [0,1]. -/
theorem cell_avg_is_mean (data : List ℕ) (w cc : ℕ) (sx0 sx1 sy0 sy1 : ℤ)
    (hdata : ∀ x ∈ data, x ≤ 255)
    (hne : rectPixels sx0 sx1 sy0 sy1 ≠ []) :
    cell_avg data w cc sx0 sx1 sy0 sy1 =
      ((rectPixels sx0 sx1 sy0 sy1).map
        (fun p => specPixelLum data w cc p.1.toNat p.2.toNat)).sum /
        ((rectPixels sx0 sx1 sy0 sy1).length : ℚ) ∧
    0 ≤ cell_avg data w cc sx0 sx1 sy0 sy1 ∧
    cell_avg data w cc sx0 sx1 sy0 sy1 ≤ 1 := by
  have hlen : 0 < (rectPixels sx0 sx1 sy0 sy1).length := List.length_pos.mpr hne
  have hlenq : (0 : ℚ) < ((rectPixels sx0 sx1 sy0 sy1).length : ℚ) := by exact_mod_cast hlen
  have hcav : cell_avg data w cc sx0 sx1 sy0 sy1 =
      ((rectPixels sx0 sx1 sy0 sy1).map
        (fun p => pixel_lum data w cc p.1.toNat p.2.toNat)).sum /
        ((rectPixels sx0 sx1 sy0 sy1).length : ℚ) := by
    unfold cell_avg
    simp [hlen]
  refine ⟨?_, ?_, ?_⟩
  · rw [hcav]
    congr 1
    exact congrArg List.sum
      (List.map_congr_left (fun (p : ℤ × ℤ) _ => pixel_lum_eq_spec data w cc p.1.toNat p.2.toNat))
  · rw [hcav]
    apply div_nonneg _ (le_of_lt hlenq)
    apply list_sum_nonneg
    intro x hx
    obtain ⟨p, _, rfl⟩ := List.mem_map.mp hx
    exact pixel_lum_nonneg data w cc p.1.toNat p.2.toNat
  · rw [hcav]
    rw [div_le_one hlenq]
    have hsum := list_sum_le_length
      ((rectPixels sx0 sx1 sy0 sy1).map (fun p => pixel_lum data w cc p.1.toNat p.2.toNat))
      (by
        intro x hx
        obtain ⟨p, _, rfl⟩ := List.mem_map.mp hx
        exact pixel_lum_le_one data w cc p.1.toNat p.2.toNat hdata)
    rw [List.length_map] at hsum
    exact hsum

/-- C3 witness: a single red pixel in a 1x1 three-channel buffer has
non-negative cell luminance over the rectangle [0,1) x [0,1). -/
theorem cell_avg_is_mean_witness : 0 ≤ cell_avg [255, 0, 0] 1 3 0 1 0 1 :=
  (cell_avg_is_mean [255, 0, 0] 1 3 0 1 0 1 (by decide) (by decide)).2.1

/-- C1: for positive source dimensions and a positive validated target
width, the output height is `max 1 (roundAway (h * (tw / w) * 0.55))` with
round half away from zero, and the rendered grid has exactly that many
rows, each of exactly `tw` glyphs, in row-major top-to-bottom
left-to-right order, each row emitted newline-terminated. -/
theorem output_grid_shape (img : Image) (tw : ℕ) (inv : Bool)
    (_hw : 0 < img.w) (_hh : 0 < img.h) (_htw : 0 < tw) :
    out_h_of img.w img.h tw =
      max 1 (roundAway ((img.h : ℚ) * ((tw : ℚ) / (img.w : ℚ)) * (0.55 : ℚ))) ∧
    (render img tw inv).length = (out_h_of img.w img.h tw).toNat ∧
    (∀ row ∈ render img tw inv, row.length = tw) ∧
    (∀ oy ox, oy < (out_h_of img.w img.h tw).toNat → ox < tw →
      ((render img tw inv).getD oy []).getD ox ' ' =
        cellChar img (normChannels img) tw (out_h_of img.w img.h tw)
          (if inv then RAMP_INVERT else RAMP_DEFAULT) ox oy) ∧
    gridString (render img tw inv) =
      String.join ((render img tw inv).map (fun row => String.mk row ++ "\n")) := by
  have hr : render img tw inv =
      (List.range (out_h_of img.w img.h tw).toNat).map (fun oy =>
        (List.range tw).map (fun ox =>
          cellChar img (normChannels img) tw (out_h_of img.w img.h tw)
            (if inv then RAMP_INVERT else RAMP_DEFAULT) ox oy)) := rfl
  refine ⟨out_h_of_eq_max img.w img.h tw, ?_, ?_, ?_, rfl⟩
  · rw [hr]
    simp
  · intro row hrow
    rw [hr] at hrow
    obtain ⟨oy, _, rfl⟩ := List.mem_map.mp hrow
    simp
  · intro oy ox hoy hox
    rw [hr, getD_map_range _ _ _ _ hoy, getD_map_range _ _ _ _ hox]

/-- C1 witness: a 2x2 white-and-black image at target width 2 renders to a
grid with the computed number of rows. -/
theorem output_grid_shape_witness :
    (render ⟨2, 2, 3, [255, 255, 255, 255, 255, 255, 255, 255, 255, 0, 0, 0]⟩ 2 false).length =
      (out_h_of 2 2 2).toNat :=
  (output_grid_shape ⟨2, 2, 3, [255, 255, 255, 255, 255, 255, 255, 255, 255, 0, 0, 0]⟩ 2 false
    (by norm_num) (by norm_num) (by norm_num)).2.1

/-- C6: the process exits 0 on success with the grid on standard output and
an empty error stream, exits 1 on a missing image argument with the usage
text on the error stream and empty standard output, and exits 2 on decode
failure with an error naming the file on the error stream and empty
standard output. -/
theorem exit_codes_and_streams (argv : List String) (decode : String → Option Image) :
    (argv.length < 2 →
      mainC argv decode = ⟨1, "", usageText (argv.getD 0 "")⟩) ∧
    (2 ≤ argv.length → decode (argv.getD 1 "") = none →
      mainC argv decode =
        ⟨2, "", "Failed to load image \x27" ++ argv.getD 1 "" ++ "\x27 (stb_image error)\n"⟩) ∧
    (∀ img, 2 ≤ argv.length → decode (argv.getD 1 "") = some img →
      mainC argv decode =
        ⟨0, gridString (render img
            (if 3 ≤ argv.length then widthFromArg (argv.getD 2 "") else 120).toNat
            (if 4 ≤ argv.length
              then (argv.getD 3 "" = "inv" || argv.getD 3 "" = "invert")
              else false)), ""⟩) := by
  refine ⟨?_, ?_, ?_⟩
  · intro h
    simp only [mainC]
    rw [if_pos h]
  · intro h2 hdec
    simp only [mainC]
    rw [if_neg (by omega), hdec]
    rfl
  · intro img h2 hdec
    simp only [mainC]
    rw [if_neg (by omega), hdec]

/-- C6 witness: a run with no image argument exits 1, printing the usage
text to the error stream and nothing to standard output. -/
theorem exit_codes_and_streams_witness :
    mainC ["prog"] (fun _ => none) = ⟨1, "", usageText "prog"⟩ :=
  (exit_codes_and_streams ["prog"] (fun _ => none)).1 (by norm_num)

end AsciiArt
